import Mathlib

/-!
Verification development for the wtransport wire-codec core
(`wtransport-proto/src/bytes.rs` and `wtransport-proto/src/stream.rs`).

Bytes are modelled as natural numbers (each `< 256` on the wire), buffers as
`List Nat`.  The external varint codec (`octets` crate / `varint.rs`, not part
of the sources) is modelled from the spec's contract.  Session-id validity
(`ids.rs`, not part of the sources) is kept abstract as a boolean predicate
`validSid` that every theorem quantifies over.

Asynchronous sources (`AsyncRead`) are modelled as a scripted byte stream: a
finite `script : List (Option Nat)` drives the per-poll behavior (`none` = the
suspension `Poll::Pending`, `some k` = a transfer of up to `k` bytes), and once
the script is exhausted the source delivers `min(requested, available)` bytes
per poll, then zero (EOF).  A future driven to completion by a cooperative
scheduler resumes with its state intact after every `Pending`, so the
completed run of a future is a recursion consuming the script.
-/

set_option maxRecDepth 8000

namespace WTProto

/- ### The external varint codec (spec-modelled) -/

/-- Modelled from the spec: `VarInt::parse_size` of the external varint codec —
the encoded length (1, 2, 4 or 8) determined by the two high bits of the first
byte, i.e. `1 <<< (b >>> 6)`. -/
def parse_size (b : Nat) : Nat := 2 ^ (b / 64)

/-- Modelled from the spec: `VarInt::size` — the encoded length of a value. -/
def varintSize (v : Nat) : Nat :=
  if v < 64 then 1
  else if v < 16384 then 2
  else if v < 1073741824 then 4
  else 8

/-- Big-endian value of a byte list. -/
def beBytes : List Nat → Nat
  | [] => 0
  | b :: l => b * 256 ^ l.length + beBytes l

/-- Modelled from the spec: decoding of a QUIC varint from exactly its encoded
bytes — the two high bits of the first byte are masked off and the remainder is
read big-endian (this is what `octets::Octets::get_varint` computes on the
`size` bytes it consumes). -/
def decodeVarint : List Nat → Nat
  | [] => 0
  | b :: l => b % 64 * 256 ^ l.length + beBytes l

/-- Modelled from the spec: QUIC varint encoding (what
`octets::OctetsMut::put_varint` emits) — the value in big-endian over
`varintSize` bytes with the length tag in the two high bits of the first
byte. -/
def encodeVarint (v : Nat) : List Nat :=
  if v < 64 then
    [v]
  else if v < 16384 then
    [64 + v / 256, v % 256]
  else if v < 1073741824 then
    [128 + v / 16777216, v / 65536 % 256, v / 256 % 256, v % 256]
  else
    [192 + v / 72057594037927936,
     v / 281474976710656 % 256,
     v / 1099511627776 % 256,
     v / 4294967296 % 256,
     v / 16777216 % 256,
     v / 65536 % 256,
     v / 256 % 256,
     v % 256]

/-- Model of `VarInt::MAX + 1 = 2^62`. -/
def varintBound : Nat := 4611686018427387904

/- ### Synchronous readers (bytes.rs) -/

/-- The `BytesReader` impl for `&[u8]` (bytes.rs): read the first byte, compute
the size, take that many bytes if available, decode them, advance the slice.
Returns `none` (with the slice unchanged) if the slice is empty or shorter than
the encoded size. -/
def sliceGetVarint (bs : List Nat) : Option (Nat × List Nat) :=
  match bs with
  | [] => none
  | b :: _ =>
    if bs.length < parse_size b then none
    else some (decodeVarint (bs.take (parse_size b)), bs.drop (parse_size b))

/-- The `BytesReader::get_bytes` impl for `&[u8]` (bytes.rs). -/
def sliceGetBytes (bs : List Nat) (len : Nat) : Option (List Nat × List Nat) :=
  if bs.length < len then none else some (bs.take len, bs.drop len)

/-- Model of `BufferReader` (bytes.rs): a zero-copy reader over an immutable buffer with
an inner offset. -/
structure BufferReader where
  buffer : List Nat
  offset : Nat
deriving DecidableEq, Repr

namespace BufferReader

/-- Model of `BufferReader::new`: offset initialized to zero. -/
def new (bs : List Nat) : BufferReader := ⟨bs, 0⟩

/-- Model of `BufferReader::capacity`: remaining capacity. -/
def capacity (r : BufferReader) : Nat := r.buffer.length - r.offset

/-- Model of `BufferReader::buffer_remaining`: the buffer from the current offset on. -/
def buffer_remaining (r : BufferReader) : List Nat := r.buffer.drop r.offset

/-- Model of `BufferReader::skip`: advance the offset; on `none` (not enough capacity)
the reader is unchanged. -/
def skip (r : BufferReader) (n : Nat) : Option BufferReader :=
  if n ≤ r.capacity then some ⟨r.buffer, r.offset + n⟩ else none

/-- Model of `BufferReader`'s `BytesReader::get_varint` (via `octets::get_varint`):
peek the first remaining byte, check capacity against the parsed size, then
decode and advance.  The failing cases return the reader unchanged. -/
def get_varint (r : BufferReader) : Option Nat × BufferReader :=
  match r.buffer_remaining.head? with
  | none => (none, r)
  | some b0 =>
    if r.capacity < parse_size b0 then (none, r)
    else (some (decodeVarint (r.buffer_remaining.take (parse_size b0))),
          ⟨r.buffer, r.offset + parse_size b0⟩)

/-- Model of `BufferReader`'s `BytesReader::get_bytes` (via `octets::get_bytes`). -/
def get_bytes (r : BufferReader) (len : Nat) : Option (List Nat) × BufferReader :=
  if r.capacity < len then (none, r)
  else (some (r.buffer_remaining.take len), ⟨r.buffer, r.offset + len⟩)

/-- Model of `BufferReader::child`: a fresh reader over the parent's remaining bytes
(`BufferReaderChild::with_parent` builds `BufferReader::new(parent.buffer_remaining())`). -/
def child (r : BufferReader) : BufferReader := new r.buffer_remaining

/-- Model of `BufferReaderChild::commit`: advance the parent by the child's offset
(`parent.skip(child.offset())`, which the source expects to always succeed). -/
def commit (r : BufferReader) (childOffset : Nat) : BufferReader :=
  (r.skip childOffset).getD r

end BufferReader

/-- The reader states reachable from `r` by successful `BytesReader`
operations and skips — the reads a caller can perform through a
`BufferReaderChild` before committing. -/
inductive Reach : BufferReader → BufferReader → Prop
  | refl (r : BufferReader) : Reach r r
  | varintStep (r₁ r₂ r₃ : BufferReader) (v : Nat) :
      Reach r₁ r₂ → r₂.get_varint = (some v, r₃) → Reach r₁ r₃
  | bytesStep (r₁ r₂ r₃ : BufferReader) (n : Nat) (bs : List Nat) :
      Reach r₁ r₂ → r₂.get_bytes n = (some bs, r₃) → Reach r₁ r₃
  | skipStep (r₁ r₂ r₃ : BufferReader) (n : Nat) :
      Reach r₁ r₂ → r₂.skip n = some r₃ → Reach r₁ r₃

/- ### Stream header framing (stream.rs) -/

/-- Model of `StreamHeaderReadError` (stream.rs). -/
inductive StreamHeaderReadError
  | UnknownStream
  | InvalidSessionId
deriving DecidableEq, Repr

/-- Model of `IoError` (bytes.rs, async module). -/
inductive IoError
  | NotConnected
  | Closed
deriving DecidableEq, Repr

/-- Model of `StreamHeaderReadAsyncError` (stream.rs); constructors renamed
`StreamHeader ↦ header`, `IO ↦ io`. -/
inductive StreamHeaderReadAsyncError
  | header (e : StreamHeaderReadError)
  | io (e : IoError)
deriving DecidableEq, Repr

/-- Model of `StreamKind` (stream.rs); the `Exercise` payload is the raw varint value. -/
inductive StreamKind
  | Control
  | QPackEncoder
  | QPackDecoder
  | WebTransport
  | Exercise (id : Nat)
deriving DecidableEq, Repr

namespace StreamKind

/-- Model of `StreamKind::is_id_exercise`. -/
def is_id_exercise (id : Nat) : Bool :=
  decide (0x21 ≤ id ∧ (id - 0x21) % 0x1f = 0)

/-- Model of `StreamKind::parse` (the `stream_type_ids` constants and the exercise
rule). -/
def parse (id : Nat) : Option StreamKind :=
  if id = 0x0 then some .Control
  else if id = 0x02 then some .QPackEncoder
  else if id = 0x03 then some .QPackDecoder
  else if id = 0x54 then some .WebTransport
  else if is_id_exercise id then some (.Exercise id)
  else none

/-- Model of `StreamKind::id`. -/
def id : StreamKind → Nat
  | .Control => 0x0
  | .QPackEncoder => 0x02
  | .QPackDecoder => 0x03
  | .WebTransport => 0x54
  | .Exercise i => i

end StreamKind

/-- Model of `StreamHeader` (stream.rs).  The session id is the raw varint value of an
external `SessionId`. -/
structure StreamHeader where
  kind : StreamKind
  session_id : Option Nat
deriving DecidableEq, Repr

/- ### The asynchronous incremental adapter (bytes.rs, async module) -/

/-- Completed run of the `GetVarint` future once the source's script is
exhausted and it simply delivers `min(requested, available)` bytes per poll and
then zero: either enough bytes remain and the varint completes, or the source
reports a zero-byte transfer and the run ends with `IoError::Closed`.  `acc`
is the prefix of the 8-byte scratch filled so far, `vsize` the parsed
`varint_size` (meaningful once `acc` is nonempty). -/
def gvFin (data acc : List Nat) (vsize : Nat) :
    Except IoError (Nat × List (Option Nat) × List Nat) :=
  match acc with
  | [] =>
    match data with
    | [] => .error .Closed
    | b :: ds =>
      if parse_size b - 1 ≤ ds.length then
        .ok (decodeVarint ((b :: ds).take (parse_size b)), [], ds.drop (parse_size b - 1))
      else .error .Closed
  | a :: acc' =>
    if vsize ≤ (a :: acc').length then
      .ok (decodeVarint ((a :: acc').take vsize), [], data)
    else if vsize - (a :: acc').length ≤ data.length then
      .ok (decodeVarint (((a :: acc') ++ data).take vsize), [], data.drop (vsize - (a :: acc').length))
    else .error .Closed

/-- Completed run of the `GetVarint` future (`impl Future for GetVarint`,
bytes.rs) against a scripted source.  Phase 1 (`acc = []`, offset 0): request
exactly one byte; a zero-byte transfer is `Closed`, otherwise `varint_size` is
parsed from it.  Phase 2: request the `vsize - offset` missing bytes, advance
by whatever is transferred, `Closed` on a zero-byte transfer; once complete,
decode the scratch prefix.  The returned triple is the decoded value plus the
final source state (leftover script, leftover data). -/
def gvRun : List (Option Nat) → List Nat → List Nat → Nat →
    Except IoError (Nat × List (Option Nat) × List Nat)
  | [], data, acc, vsize => gvFin data acc vsize
  | e :: rest, data, acc, vsize =>
    match acc with
    | [] =>
      match e with
      | none => gvRun rest data [] vsize
      | some k =>
        match data with
        | [] => .error .Closed
        | b :: ds =>
          if k = 0 then .error .Closed
          else gvRun rest ds [b] (parse_size b)
    | a :: acc' =>
      if vsize ≤ (a :: acc').length then
        .ok (decodeVarint ((a :: acc').take vsize), e :: rest, data)
      else
        match e with
        | none => gvRun rest data (a :: acc') vsize
        | some k =>
          let n := min (min k (vsize - (a :: acc').length)) data.length
          if n = 0 then .error .Closed
          else gvRun rest (data.drop n) ((a :: acc') ++ data.take n) vsize

/-- Completed run of the `GetBuffer` future once the script is exhausted
(see `gvFin`). -/
def gbFin (data acc : List Nat) (len : Nat) :
    Except IoError (List Nat × List (Option Nat) × List Nat) :=
  if len ≤ acc.length then .ok (acc.take len, [], data)
  else if len - acc.length ≤ data.length then
    .ok ((acc ++ data).take len, [], data.drop (len - acc.length))
  else .error .Closed

/-- Completed run of the `GetBuffer` future (`impl Future for GetBuffer`,
bytes.rs) against a scripted source: fill a destination of length `len`,
advancing by each partial transfer; a zero-byte transfer is `Closed`. -/
def gbRun : List (Option Nat) → List Nat → List Nat → Nat →
    Except IoError (List Nat × List (Option Nat) × List Nat)
  | [], data, acc, len => gbFin data acc len
  | e :: rest, data, acc, len =>
    if len ≤ acc.length then .ok (acc.take len, e :: rest, data)
    else
      match e with
      | none => gbRun rest data acc len
      | some k =>
        let n := min (min k (len - acc.length)) data.length
        if n = 0 then .error .Closed
        else gbRun rest (data.drop n) (acc ++ data.take n) len

/-- A script whose transfers are all nonblocking-suspensions or nonempty
partial transfers — a source that "delivers the bytes then EOF" without ever
spuriously reporting a zero-byte transfer while data remains. -/
def Progressive (script : List (Option Nat)) : Prop := ∀ e ∈ script, e ≠ some 0

instance decidableProgressive (script : List (Option Nat)) : Decidable (Progressive script) :=
  List.decidableBAll (fun e => e ≠ some 0) script

/-- The `AsyncRead` impl for `&[u8]` (bytes.rs): `amt = min(len, buf.len())`,
then `buf.copy_from_slice(a)` on the nonempty transferred chunk `a`.
`copy_from_slice` panics unless the lengths agree, i.e. whenever
`0 < amt < buf.len()`; the panic is modelled as `none`.  Otherwise the call
returns `Poll::Ready(Ok(amt))` with the slice advanced. -/
def slicePollRead (src : List Nat) (bufLen : Nat) : Option (Nat × List Nat) :=
  let amt := min src.length bufLen
  if amt = 0 then some (0, src.drop amt)
  else if amt = bufLen then some (amt, src.drop amt)
  else none

namespace StreamHeader

/-- Model of `StreamHeader::new_control`. -/
def new_control : StreamHeader := ⟨.Control, none⟩

/-- Model of `StreamHeader::new_webtransport`. -/
def new_webtransport (sid : Nat) : StreamHeader := ⟨.WebTransport, some sid⟩

/-- Model of `StreamHeader::session_id` accessor: returns `some _` exactly for
`WebTransport` kind; `none` in the outer `Option` marks the `expect` panic
taken when a `WebTransport` header carries no session id. -/
def session_id_acc (h : StreamHeader) : Option (Option Nat) :=
  match h.kind with
  | .WebTransport =>
    match h.session_id with
    | some sid => some (some sid)
    | none => none
  | _ => some none

/-- Model of `StreamHeader::read` instantiated at the `&[u8]` reader: returns the result
(`none` = not enough bytes) together with the final state of the slice, which
on failure may be partially consumed. -/
def readSlice (validSid : Nat → Bool) (bs : List Nat) :
    Option (Except StreamHeaderReadError StreamHeader) × List Nat :=
  match sliceGetVarint bs with
  | none => (none, bs)
  | some (kid, bs1) =>
    match StreamKind.parse kid with
    | none => (some (.error .UnknownStream), bs1)
    | some .WebTransport =>
      match sliceGetVarint bs1 with
      | none => (none, bs1)
      | some (sid, bs2) =>
        if validSid sid then (some (.ok ⟨.WebTransport, some sid⟩), bs2)
        else (some (.error .InvalidSessionId), bs2)
    | some kind => (some (.ok ⟨kind, none⟩), bs1)

/-- Model of `StreamHeader::read` instantiated at `BufferReader` (this is the reader
`read_from_buffer` drives through the child). -/
def readBR (validSid : Nat → Bool) (r : BufferReader) :
    Option (Except StreamHeaderReadError StreamHeader) × BufferReader :=
  match r.get_varint with
  | (none, r1) => (none, r1)
  | (some kid, r1) =>
    match StreamKind.parse kid with
    | none => (some (.error .UnknownStream), r1)
    | some .WebTransport =>
      match r1.get_varint with
      | (none, r2) => (none, r2)
      | (some sid, r2) =>
        if validSid sid then (some (.ok ⟨.WebTransport, some sid⟩), r2)
        else (some (.error .InvalidSessionId), r2)
    | some kind => (some (.ok ⟨kind, none⟩), r1)

/-- Model of `StreamHeader::read_from_buffer`: run `read` against a child of the reader
and commit only on success; on `None` or `Err` the child is dropped and the
parent reader is untouched. -/
def read_from_buffer (validSid : Nat → Bool) (r : BufferReader) :
    Option (Except StreamHeaderReadError StreamHeader) × BufferReader :=
  match readBR validSid r.child with
  | (some (.ok h), c) => (some (.ok h), r.commit c.offset)
  | (some (.error e), _) => (some (.error e), r)
  | (none, _) => (none, r)

/-- Model of `StreamHeader::read_async` (stream.rs) driven to completion against a
scripted source: read the discriminant varint, map it through
`StreamKind::parse`, and for `WebTransport` read and convert the session-id
varint.  I/O and content errors are kept on separate axes. -/
def read_async (validSid : Nat → Bool) (script : List (Option Nat)) (data : List Nat) :
    Except StreamHeaderReadAsyncError (StreamHeader × List (Option Nat) × List Nat) :=
  match gvRun script data [] 0 with
  | .error e => .error (.io e)
  | .ok (kid, script1, data1) =>
    match StreamKind.parse kid with
    | none => .error (.header .UnknownStream)
    | some .WebTransport =>
      match gvRun script1 data1 [] 0 with
      | .error e => .error (.io e)
      | .ok (sid, script2, data2) =>
        if validSid sid then .ok (⟨.WebTransport, some sid⟩, script2, data2)
        else .error (.header .InvalidSessionId)
    | some kind => .ok (⟨kind, none⟩, script1, data1)

/-- Model of `StreamHeader::write` into a growable sink (the `BytesWriter` impl for
`Vec<u8>` appends the encoding); `none` marks the `session_id()` accessor
panic. -/
def writeBytes (h : StreamHeader) : Option (List Nat) :=
  match h.session_id_acc with
  | none => none
  | some none => some (encodeVarint h.kind.id)
  | some (some sid) => some (encodeVarint h.kind.id ++ encodeVarint sid)

/-- Model of `StreamHeader::write_size`. -/
def write_size (h : StreamHeader) : Option Nat :=
  match h.session_id_acc with
  | none => none
  | some none => some (varintSize h.kind.id)
  | some (some sid) => some (varintSize h.kind.id + varintSize sid)

end StreamHeader

/-- Headers constructible through the public entry points: for `WebTransport` a
session id accepted by the external fallible conversion, for `Exercise` an id
passing the greasing rule, otherwise no session id; all ids within varint
range. -/
def validHeader (validSid : Nat → Bool) (h : StreamHeader) : Bool :=
  match h.kind, h.session_id with
  | .WebTransport, some sid => validSid sid && decide (sid < varintBound)
  | .WebTransport, none => false
  | .Exercise i, none => StreamKind.is_id_exercise i && decide (i < varintBound)
  | .Exercise _, some _ => false
  | _, some _ => false
  | _, none => true

/-- Classification of a synchronous header-read result into the outcome
classes the three entry points must agree on. -/
inductive ReadOutcome
  | incomplete
  | contentErr (e : StreamHeaderReadError)
  | accepted (kind : StreamKind) (sid : Option Nat)
deriving DecidableEq, Repr

/-- Outcome class of a synchronous read result. -/
def classify : Option (Except StreamHeaderReadError StreamHeader) → ReadOutcome
  | none => .incomplete
  | some (.error e) => .contentErr e
  | some (.ok h) => .accepted h.kind h.session_id

/-- Outcome class of an asynchronous read result (partial data surfaces as an
I/O error rather than as `None`). -/
def classifyAsync :
    Except StreamHeaderReadAsyncError (StreamHeader × List (Option Nat) × List Nat) → ReadOutcome
  | .error (.io _) => .incomplete
  | .error (.header e) => .contentErr e
  | .ok (h, _, _) => .accepted h.kind h.session_id

/- ### Basic reader facts -/

theorem capacity_eq_remaining (r : BufferReader) :
    r.capacity = r.buffer_remaining.length := by
  simp [BufferReader.capacity, BufferReader.buffer_remaining]

/- ### Varint codec facts -/

theorem take_one (a : Nat) (l : List Nat) : (a :: l).take 1 = [a] := rfl

theorem take_two (a b : Nat) (l : List Nat) : (a :: b :: l).take 2 = [a, b] := rfl

theorem take_four (a b c d : Nat) (l : List Nat) :
    (a :: b :: c :: d :: l).take 4 = [a, b, c, d] := rfl

theorem take_eight (a b c d e f g h : Nat) (l : List Nat) :
    (a :: b :: c :: d :: e :: f :: g :: h :: l).take 8 = [a, b, c, d, e, f, g, h] := rfl

theorem drop_one (a : Nat) (l : List Nat) : (a :: l).drop 1 = l := rfl

theorem drop_two (a b : Nat) (l : List Nat) : (a :: b :: l).drop 2 = l := rfl

theorem drop_four (a b c d : Nat) (l : List Nat) :
    (a :: b :: c :: d :: l).drop 4 = l := rfl

theorem drop_eight (a b c d e f g h : Nat) (l : List Nat) :
    (a :: b :: c :: d :: e :: f :: g :: h :: l).drop 8 = l := rfl

theorem encodeVarint_length (v : Nat) :
    (encodeVarint v).length = varintSize v := by
  unfold encodeVarint varintSize
  split_ifs <;> simp

/-- Reading an encoded varint from the front of a slice yields the value back
and consumes exactly the encoded bytes. -/
theorem sliceGetVarint_encode (v : Nat) (hv : v < varintBound) (rest : List Nat) :
    sliceGetVarint (encodeVarint v ++ rest) = some (v, rest) := by
  unfold varintBound at hv
  by_cases h1 : v < 64
  · have hd : v / 64 = 0 := by omega
    simp only [encodeVarint, if_pos h1, List.cons_append, List.nil_append,
      sliceGetVarint, parse_size, hd]
    norm_num [take_one, drop_one, decodeVarint, beBytes]
    omega
  · by_cases h2 : v < 16384
    · have hd : (64 + v / 256) / 64 = 1 := by omega
      simp only [encodeVarint, if_neg h1, if_pos h2, List.cons_append, List.nil_append,
        sliceGetVarint, parse_size, hd]
      norm_num [take_two, drop_two, decodeVarint, beBytes]
      omega
    · by_cases h3 : v < 1073741824
      · have hd : (128 + v / 16777216) / 64 = 2 := by omega
        simp only [encodeVarint, if_neg h1, if_neg h2, if_pos h3, List.cons_append,
          List.nil_append, sliceGetVarint, parse_size, hd]
        norm_num [take_four, drop_four, decodeVarint, beBytes]
        omega
      · have hd : (192 + v / 72057594037927936) / 64 = 3 := by omega
        simp only [encodeVarint, if_neg h1, if_neg h2, if_neg h3, List.cons_append,
          List.nil_append, sliceGetVarint, parse_size, hd]
        norm_num [take_eight, drop_eight, decodeVarint, beBytes]
        omega

/-- Sanity: the four canonical sample encodings from the spec decode and
re-encode exactly. -/
theorem varint_canonical_vectors :
    decodeVarint [0x25] = 37 ∧ encodeVarint 37 = [0x25] ∧
    decodeVarint [0x7b, 0xbd] = 15293 ∧ encodeVarint 15293 = [0x7b, 0xbd] ∧
    decodeVarint [0x9d, 0x7f, 0x3e, 0x7d] = 494878333 ∧
    encodeVarint 494878333 = [0x9d, 0x7f, 0x3e, 0x7d] ∧
    decodeVarint [0xc2, 0x19, 0x7c, 0x5e, 0xff, 0x14, 0xe8, 0x8c] = 151288809941952652 ∧
    encodeVarint 151288809941952652 = [0xc2, 0x19, 0x7c, 0x5e, 0xff, 0x14, 0xe8, 0x8c] := by
  decide

theorem parse_kind_id (k : StreamKind)
    (hk : ∀ i, k = .Exercise i → StreamKind.is_id_exercise i = true) :
    StreamKind.parse k.id = some k := by
  cases k with
  | Exercise i =>
    have h := hk i rfl
    have h' : 0x21 ≤ i ∧ (i - 0x21) % 0x1f = 0 := by
      simpa [StreamKind.is_id_exercise] using h
    have h0 : ¬ i = 0x0 := by omega
    have h2 : ¬ i = 0x02 := by omega
    have h3 : ¬ i = 0x03 := by omega
    have h4 : ¬ i = 0x54 := by omega
    simp [StreamKind.parse, StreamKind.id, h0, h2, h3, h4, h]
  | Control => rfl
  | QPackEncoder => rfl
  | QPackDecoder => rfl
  | WebTransport => rfl

/- ### Bridging the `BufferReader` reader and the slice reader -/

theorem sliceGetVarint_cons (b : Nat) (t : List Nat) :
    sliceGetVarint (b :: t) =
      if (b :: t).length < parse_size b then none
      else some (decodeVarint ((b :: t).take (parse_size b)), (b :: t).drop (parse_size b)) := rfl

theorem get_varint_none (r : BufferReader) (h : sliceGetVarint r.buffer_remaining = none) :
    r.get_varint = (none, r) := by
  unfold BufferReader.get_varint
  cases hrem : r.buffer_remaining with
  | nil => simp
  | cons b t =>
    rw [hrem, sliceGetVarint_cons] at h
    split at h
    · next hlt =>
      simp only [List.head?_cons]
      rw [if_pos (by rw [capacity_eq_remaining, hrem]; exact hlt)]
    · exact absurd h (by simp)

theorem get_varint_some (r : BufferReader) (v : Nat) (rest : List Nat)
    (h : sliceGetVarint r.buffer_remaining = some (v, rest)) :
    ∃ r', r.get_varint = (some v, r') ∧ r'.buffer = r.buffer ∧
      r'.buffer_remaining = rest ∧
      r'.offset = r.offset + (r.buffer_remaining.length - rest.length) := by
  unfold BufferReader.get_varint
  cases hrem : r.buffer_remaining with
  | nil => rw [hrem] at h; exact absurd h (by simp [sliceGetVarint])
  | cons b t =>
    rw [hrem, sliceGetVarint_cons] at h
    split at h
    · exact absurd h (by simp)
    · next hge =>
      rw [Option.some_inj, Prod.mk.injEq] at h
      obtain ⟨hval, hrest⟩ := h
      refine ⟨⟨r.buffer, r.offset + parse_size b⟩, ?_, rfl, ?_, ?_⟩
      · simp only [List.head?_cons]
        rw [if_neg (by rw [capacity_eq_remaining, hrem]; exact hge), hval]
      · show r.buffer.drop (r.offset + parse_size b) = rest
        rw [← List.drop_drop]
        show r.buffer_remaining.drop (parse_size b) = rest
        rw [hrem, hrest]
      · have hlen : rest.length = (b :: t).length - parse_size b := by
          rw [← hrest]; simp
        have hsz : ¬ (b :: t).length < parse_size b := hge
        show r.offset + parse_size b = r.offset + ((b :: t).length - rest.length)
        simp only [List.length_cons] at hlen hsz ⊢
        omega

theorem child_remaining (r : BufferReader) :
    r.child.buffer_remaining = r.buffer_remaining := by
  simp [BufferReader.child, BufferReader.new, BufferReader.buffer_remaining]

theorem readBR_fst (validSid : Nat → Bool) (r : BufferReader) :
    (StreamHeader.readBR validSid r).1 = (StreamHeader.readSlice validSid r.buffer_remaining).1 := by
  unfold StreamHeader.readBR StreamHeader.readSlice
  cases hgv : sliceGetVarint r.buffer_remaining with
  | none => rw [get_varint_none r hgv]
  | some p =>
    obtain ⟨kid, bs1⟩ := p
    obtain ⟨r1, hr1, _, hrem1, _⟩ := get_varint_some r kid bs1 hgv
    rw [hr1]
    dsimp only
    cases hp : StreamKind.parse kid with
    | none => rfl
    | some kind =>
      cases kind with
      | WebTransport =>
        cases hgv2 : sliceGetVarint bs1 with
        | none =>
          rw [← hrem1] at hgv2
          rw [get_varint_none r1 hgv2]
        | some q =>
          obtain ⟨sid, bs2⟩ := q
          rw [← hrem1] at hgv2
          obtain ⟨r2, hr2, _, _, _⟩ := get_varint_some r1 sid bs2 hgv2
          rw [hr2]
          dsimp only
          by_cases hv : validSid sid <;> simp [hv]
      | Control => rfl
      | QPackEncoder => rfl
      | QPackDecoder => rfl
      | Exercise i => rfl

theorem read_from_buffer_fst (validSid : Nat → Bool) (r : BufferReader) :
    (StreamHeader.read_from_buffer validSid r).1 =
      (StreamHeader.readSlice validSid r.buffer_remaining).1 := by
  have hfst := readBR_fst validSid r.child
  rw [child_remaining] at hfst
  rw [← hfst]
  unfold StreamHeader.read_from_buffer
  rcases hbr : StreamHeader.readBR validSid r.child with ⟨res, c⟩
  cases res with
  | none => rfl
  | some e =>
    cases e with
    | error e' => rfl
    | ok h => rfl

/- ### C3: failed buffer-atomic reads leave the parent reader untouched -/

/-- C3: for every `BufferReader` state, if `StreamHeader::read_from_buffer`
returns `None` (insufficient bytes) or `Some(Err(_))` (content error), the
reader after the call is exactly the reader before the call — in particular its
offset and its remaining capacity are unchanged. -/
theorem C3_failed_read_from_buffer_preserves_reader (validSid : Nat → Bool) (r : BufferReader)
    (hfail : (StreamHeader.read_from_buffer validSid r).1 = none ∨
      ∃ e, (StreamHeader.read_from_buffer validSid r).1 = some (.error e)) :
    (StreamHeader.read_from_buffer validSid r).2 = r ∧
    (StreamHeader.read_from_buffer validSid r).2.offset = r.offset ∧
    (StreamHeader.read_from_buffer validSid r).2.capacity = r.capacity := by
  rcases hbr : StreamHeader.readBR validSid r.child with ⟨res, c⟩
  have hrfb : StreamHeader.read_from_buffer validSid r =
      match res with
      | some (.ok h0) => (some (.ok h0), r.commit c.offset)
      | some (.error e0) => (some (.error e0), r)
      | none => (none, r) := by
    unfold StreamHeader.read_from_buffer
    simp only [hbr]
    cases res with
    | none => rfl
    | some e =>
      cases e with
      | ok h0 => rfl
      | error e0 => rfl
  cases res with
  | none => rw [hrfb]; exact ⟨rfl, rfl, rfl⟩
  | some e =>
    cases e with
    | error e0 => rw [hrfb]; exact ⟨rfl, rfl, rfl⟩
    | ok h0 =>
      rw [hrfb] at hfail
      rcases hfail with h1 | ⟨e1, h1⟩
      · exact Option.noConfusion h1
      · exact Except.noConfusion (Option.some.inj h1)

/-- Witness for C3 at a concrete input: a one-byte buffer whose single byte
announces a two-byte varint, so the read is incomplete. -/
theorem C3_witness :
    (StreamHeader.read_from_buffer (fun _ => true) (BufferReader.new [0x40])).2 =
      BufferReader.new [0x40] :=
  (C3_failed_read_from_buffer_preserves_reader (fun _ => true) (BufferReader.new [0x40])
    (Or.inl rfl)).1

/- ### C1: write/read round-trip through a growable sink -/

theorem readSlice_encode_kind (validSid : Nat → Bool) (k : StreamKind) (extra : List Nat)
    (hid : k.id < varintBound) (hk : StreamKind.parse k.id = some k)
    (hnw : k ≠ .WebTransport) :
    StreamHeader.readSlice validSid (encodeVarint k.id ++ extra) =
      (some (.ok ⟨k, none⟩), extra) := by
  unfold StreamHeader.readSlice
  rw [sliceGetVarint_encode k.id hid extra]
  dsimp only
  rw [hk]
  cases k with
  | WebTransport => exact absurd rfl hnw
  | Control => rfl
  | QPackEncoder => rfl
  | QPackDecoder => rfl
  | Exercise i => rfl

theorem readSlice_encode_wt (validSid : Nat → Bool) (sid : Nat) (extra : List Nat)
    (hsid : sid < varintBound) (hv : validSid sid = true) :
    StreamHeader.readSlice validSid (encodeVarint 0x54 ++ (encodeVarint sid ++ extra)) =
      (some (.ok ⟨.WebTransport, some sid⟩), extra) := by
  unfold StreamHeader.readSlice
  rw [sliceGetVarint_encode 0x54 (by decide) (encodeVarint sid ++ extra)]
  dsimp only
  rw [show StreamKind.parse 0x54 = some StreamKind.WebTransport from rfl]
  dsimp only
  rw [sliceGetVarint_encode sid hsid extra]
  dsimp only
  simp [hv]

/-- C1: every header constructible through a public entry point (any valid
kind/session-id combination) written with `StreamHeader::write` into an empty
growable sink reads back through `StreamHeader::read` as an equal header (same
kind, same session id), consuming exactly `write_size()` bytes of the input. -/
theorem C1_write_read_roundtrip (validSid : Nat → Bool) (h : StreamHeader)
    (hh : validHeader validSid h = true) :
    ∃ bytes : List Nat,
      h.writeBytes = some bytes ∧
      h.write_size = some bytes.length ∧
      ∀ extra : List Nat,
        StreamHeader.readSlice validSid (bytes ++ extra) = (some (.ok h), extra) := by
  obtain ⟨kind, sid⟩ := h
  cases kind with
  | WebTransport =>
    cases sid with
    | none => simp [validHeader] at hh
    | some s =>
      have hv : validSid s = true ∧ s < varintBound := by
        simpa [validHeader] using hh
      refine ⟨encodeVarint 0x54 ++ encodeVarint s, rfl, ?_, ?_⟩
      · show some (varintSize 0x54 + varintSize s) = _
        rw [List.length_append, encodeVarint_length, encodeVarint_length]
      · intro extra
        rw [List.append_assoc]
        exact readSlice_encode_wt validSid s extra hv.2 hv.1
  | Exercise i =>
    cases sid with
    | some s => simp [validHeader] at hh
    | none =>
      have hv : StreamKind.is_id_exercise i = true ∧ i < varintBound := by
        simpa [validHeader] using hh
      refine ⟨encodeVarint i, rfl, ?_, ?_⟩
      · show some (varintSize i) = _
        rw [encodeVarint_length]
      · intro extra
        exact readSlice_encode_kind validSid (.Exercise i) extra hv.2
          (parse_kind_id _ (by intro j hj; cases hj; exact hv.1)) (by simp)
  | Control =>
    cases sid with
    | some s => simp [validHeader] at hh
    | none =>
      refine ⟨encodeVarint 0x0, rfl, ?_, fun extra => ?_⟩
      · show some (varintSize 0x0) = _
        rw [encodeVarint_length]
      · exact readSlice_encode_kind validSid .Control extra (by decide)
          rfl (by simp)
  | QPackEncoder =>
    cases sid with
    | some s => simp [validHeader] at hh
    | none =>
      refine ⟨encodeVarint 0x02, rfl, ?_, fun extra => ?_⟩
      · show some (varintSize 0x02) = _
        rw [encodeVarint_length]
      · exact readSlice_encode_kind validSid .QPackEncoder extra (by decide)
          rfl (by simp)
  | QPackDecoder =>
    cases sid with
    | some s => simp [validHeader] at hh
    | none =>
      refine ⟨encodeVarint 0x03, rfl, ?_, fun extra => ?_⟩
      · show some (varintSize 0x03) = _
        rw [encodeVarint_length]
      · exact readSlice_encode_kind validSid .QPackDecoder extra (by decide)
          rfl (by simp)

/-- Witness for C1 at a concrete header: a `WebTransport` header with session
id `0` under a conversion accepting every id. -/
theorem C1_witness :
    ∃ bytes : List Nat,
      (StreamHeader.new_webtransport 0).writeBytes = some bytes ∧
      (StreamHeader.new_webtransport 0).write_size = some bytes.length ∧
      ∀ extra : List Nat,
        StreamHeader.readSlice (fun _ => true) (bytes ++ extra) =
          (some (.ok (StreamHeader.new_webtransport 0)), extra) :=
  C1_write_read_roundtrip (fun _ => true) (StreamHeader.new_webtransport 0) (by decide)

/- ### Step equations for the GetVarint run -/

theorem gvRun_nil (data acc : List Nat) (vsize : Nat) :
    gvRun [] data acc vsize = gvFin data acc vsize := rfl

theorem gvRun_pending1 (rest : List (Option Nat)) (data : List Nat) (vsize : Nat) :
    gvRun (none :: rest) data [] vsize = gvRun rest data [] vsize := rfl

theorem gvRun_pending2 (rest : List (Option Nat)) (data : List Nat) (a : Nat) (acc : List Nat)
    (vsize : Nat) (h : ¬ vsize ≤ (a :: acc).length) :
    gvRun (none :: rest) data (a :: acc) vsize = gvRun rest data (a :: acc) vsize := by
  simp only [gvRun]
  rw [if_neg h]

theorem gvRun_complete (e : Option Nat) (rest : List (Option Nat)) (data : List Nat)
    (a : Nat) (acc : List Nat) (vsize : Nat) (h : vsize ≤ (a :: acc).length) :
    gvRun (e :: rest) data (a :: acc) vsize =
      .ok (decodeVarint ((a :: acc).take vsize), e :: rest, data) := by
  simp only [gvRun]
  rw [if_pos h]

theorem gvRun_chunk1_nildata (k : Nat) (rest : List (Option Nat)) (vsize : Nat) :
    gvRun (some k :: rest) [] [] vsize = .error .Closed := rfl

theorem gvRun_chunk1 (k : Nat) (rest : List (Option Nat)) (b : Nat) (ds : List Nat)
    (vsize : Nat) (hk : k ≠ 0) :
    gvRun (some k :: rest) (b :: ds) [] vsize = gvRun rest ds [b] (parse_size b) := by
  simp only [gvRun]
  rw [if_neg hk]

theorem gvRun_chunk1_zero (rest : List (Option Nat)) (b : Nat) (ds : List Nat) (vsize : Nat) :
    gvRun (some 0 :: rest) (b :: ds) [] vsize = .error .Closed := rfl

theorem gvRun_chunk2 (k : Nat) (rest : List (Option Nat)) (data : List Nat) (a : Nat)
    (acc : List Nat) (vsize : Nat) (h : ¬ vsize ≤ (a :: acc).length) :
    gvRun (some k :: rest) data (a :: acc) vsize =
      if min (min k (vsize - (a :: acc).length)) data.length = 0 then .error .Closed
      else gvRun rest (data.drop (min (min k (vsize - (a :: acc).length)) data.length))
             ((a :: acc) ++ data.take (min (min k (vsize - (a :: acc).length)) data.length))
             vsize := by
  simp only [gvRun]
  rw [if_neg h]

/- ### Completed GetVarint runs: phase-2 invariants -/

/-- Against a source that never spuriously reports a zero transfer, a partially
filled `GetVarint` with enough data left completes with the decoded value of
the first `vsize` accumulated-plus-remaining bytes, consuming exactly the
missing bytes. -/
theorem gvRun_phase2_ok (script : List (Option Nat)) :
    ∀ (data : List Nat) (a : Nat) (acc : List Nat) (vsize : Nat), Progressive script →
      (a :: acc).length ≤ vsize → vsize - (a :: acc).length ≤ data.length →
      ∃ script', Progressive script' ∧
        gvRun script data (a :: acc) vsize =
          .ok (decodeVarint (((a :: acc) ++ data).take vsize), script',
               data.drop (vsize - (a :: acc).length)) := by
  induction script with
  | nil =>
    intro data a acc vsize _ hle hdata
    refine ⟨[], fun e he => absurd he (List.not_mem_nil e), ?_⟩
    rw [gvRun_nil]
    unfold gvFin
    dsimp only
    by_cases hc : vsize ≤ (a :: acc).length
    · rw [if_pos hc, List.take_append_of_le_length hc,
        (by omega : vsize - (a :: acc).length = 0), List.drop_zero]
    · rw [if_neg hc, if_pos hdata]
  | cons e rest ih =>
    intro data a acc vsize hp hle hdata
    have hpr : Progressive rest := fun x hx => hp x (List.mem_cons_of_mem e hx)
    by_cases hc : vsize ≤ (a :: acc).length
    · refine ⟨e :: rest, hp, ?_⟩
      rw [gvRun_complete _ _ _ _ _ _ hc, List.take_append_of_le_length hc,
        (by omega : vsize - (a :: acc).length = 0), List.drop_zero]
    · cases e with
      | none =>
        obtain ⟨s', hs', heq⟩ := ih data a acc vsize hpr hle hdata
        exact ⟨s', hs', by rw [gvRun_pending2 _ _ _ _ _ hc]; exact heq⟩
      | some k =>
        have hpe : (some k : Option Nat) ≠ some 0 := hp _ (List.mem_cons_self _ _)
        have hk : 1 ≤ k := by
          rcases Nat.eq_zero_or_pos k with h0 | h1
          · exact absurd (by rw [h0]) hpe
          · exact h1
        have hlc : (a :: acc).length < vsize := by omega
        set n := min (min k (vsize - (a :: acc).length)) data.length with hn
        have hnpos : ¬ n = 0 := by
          have h1 : 1 ≤ vsize - (a :: acc).length := by omega
          have h2 : 1 ≤ data.length := le_trans h1 hdata
          omega
        have hnle : n ≤ data.length := by omega
        have hnreq : n ≤ vsize - (a :: acc).length := by omega
        have htk : (data.take n).length = n := by rw [List.length_take]; omega
        have hlen1 : (a :: acc).length = acc.length + 1 := rfl
        obtain ⟨s', hs', heq⟩ :=
          ih (data.drop n) a (acc ++ data.take n) vsize hpr
            (by simp only [List.length_cons, List.length_append, htk]; omega)
            (by simp only [List.length_cons, List.length_append, List.length_drop, htk]; omega)
        refine ⟨s', hs', ?_⟩
        rw [gvRun_chunk2 _ _ _ _ _ _ hc, if_neg hnpos]
        rw [show (a :: acc) ++ data.take n = a :: (acc ++ data.take n) from rfl]
        rw [heq]
        have e1 : (a :: (acc ++ data.take n)) ++ data.drop n = (a :: acc) ++ data := by
          simp [List.append_assoc]
        have e2 : (data.drop n).drop (vsize - (a :: (acc ++ data.take n)).length) =
            data.drop (vsize - (a :: acc).length) := by
          rw [List.drop_drop]
          have : n + (vsize - (a :: (acc ++ data.take n)).length) =
              vsize - (a :: acc).length := by
            simp only [List.length_cons, List.length_append, htk]
            omega
          rw [this]
        rw [e1, e2]

/-- A partially filled `GetVarint` whose source holds fewer bytes than the
varint still needs ends with `Closed`, whatever the script does. -/
theorem gvRun_phase2_short (script : List (Option Nat)) :
    ∀ (data : List Nat) (a : Nat) (acc : List Nat) (vsize : Nat),
      (a :: acc).length + data.length < vsize →
      gvRun script data (a :: acc) vsize = .error .Closed := by
  induction script with
  | nil =>
    intro data a acc vsize hshort
    rw [gvRun_nil]
    unfold gvFin
    dsimp only
    rw [if_neg (by omega), if_neg (by omega)]
  | cons e rest ih =>
    intro data a acc vsize hshort
    have hc : ¬ vsize ≤ (a :: acc).length := by omega
    cases e with
    | none => rw [gvRun_pending2 _ _ _ _ _ hc]; exact ih data a acc vsize hshort
    | some k =>
      rw [gvRun_chunk2 _ _ _ _ _ _ hc]
      set n := min (min k (vsize - (a :: acc).length)) data.length with hn
      by_cases hnz : n = 0
      · rw [if_pos hnz]
      · rw [if_neg hnz]
        have hnle : n ≤ data.length := by omega
        have htk : (data.take n).length = n := by rw [List.length_take]; omega
        have hlen1 : (a :: acc).length = acc.length + 1 := rfl
        rw [show (a :: acc) ++ data.take n = a :: (acc ++ data.take n) from rfl]
        apply ih
        simp only [List.length_cons, List.length_append, List.length_drop, htk]
        omega

/-- A partially filled `GetVarint` either completes with the decoded value of
the available bytes (which requires that enough were available) or ends with
`Closed` — it never yields anything else, for any script whatsoever. -/
theorem gvRun_phase2_any (script : List (Option Nat)) :
    ∀ (data : List Nat) (a : Nat) (acc : List Nat) (vsize : Nat),
      (a :: acc).length ≤ vsize →
      gvRun script data (a :: acc) vsize = .error .Closed ∨
      (vsize - (a :: acc).length ≤ data.length ∧ ∃ script',
        gvRun script data (a :: acc) vsize =
          .ok (decodeVarint (((a :: acc) ++ data).take vsize), script',
               data.drop (vsize - (a :: acc).length))) := by
  induction script with
  | nil =>
    intro data a acc vsize hle
    rw [gvRun_nil]
    unfold gvFin
    dsimp only
    by_cases hc : vsize ≤ (a :: acc).length
    · refine Or.inr ⟨by omega, [], ?_⟩
      rw [if_pos hc, List.take_append_of_le_length hc,
        (by omega : vsize - (a :: acc).length = 0), List.drop_zero]
    · by_cases hd : vsize - (a :: acc).length ≤ data.length
      · refine Or.inr ⟨hd, [], ?_⟩
        rw [if_neg hc, if_pos hd]
      · refine Or.inl ?_
        rw [if_neg hc, if_neg hd]
  | cons e rest ih =>
    intro data a acc vsize hle
    by_cases hc : vsize ≤ (a :: acc).length
    · refine Or.inr ⟨by omega, e :: rest, ?_⟩
      rw [gvRun_complete _ _ _ _ _ _ hc, List.take_append_of_le_length hc,
        (by omega : vsize - (a :: acc).length = 0), List.drop_zero]
    · cases e with
      | none =>
        rw [gvRun_pending2 _ _ _ _ _ hc]
        exact ih data a acc vsize hle
      | some k =>
        rw [gvRun_chunk2 _ _ _ _ _ _ hc]
        set n := min (min k (vsize - (a :: acc).length)) data.length with hn
        by_cases hnz : n = 0
        · rw [if_pos hnz]; exact Or.inl rfl
        · rw [if_neg hnz]
          have hnle : n ≤ data.length := by omega
          have hnreq : n ≤ vsize - (a :: acc).length := by omega
          have htk : (data.take n).length = n := by rw [List.length_take]; omega
          have hlen1 : (a :: acc).length = acc.length + 1 := rfl
          rw [show (a :: acc) ++ data.take n = a :: (acc ++ data.take n) from rfl]
          rcases ih (data.drop n) a (acc ++ data.take n) vsize
              (by simp only [List.length_cons, List.length_append, htk]; omega) with
            hclosed | ⟨hd, s', heq⟩
          · exact Or.inl hclosed
          · refine Or.inr ⟨?_, s', ?_⟩
            · simp only [List.length_cons, List.length_append, List.length_drop, htk] at hd ⊢
              omega
            · rw [heq]
              have e1 : (a :: (acc ++ data.take n)) ++ data.drop n = (a :: acc) ++ data := by
                simp [List.append_assoc]
              have e2 : (data.drop n).drop (vsize - (a :: (acc ++ data.take n)).length) =
                  data.drop (vsize - (a :: acc).length) := by
                rw [List.drop_drop]
                have : n + (vsize - (a :: (acc ++ data.take n)).length) =
                    vsize - (a :: acc).length := by
                  simp only [List.length_cons, List.length_append, htk]
                  omega
                rw [this]
              rw [e1, e2]

/- ### Completed GetVarint runs from the initial state -/

/-- Against a source that delivers the bytes in nonempty partial transfers
interleaved with suspensions, `GetVarint` completes with exactly the value the
synchronous slice reader would decode, leaving the same remainder. -/
theorem gvRun_start_ok (script : List (Option Nat)) :
    ∀ (data : List Nat) (v : Nat) (rest : List Nat), Progressive script →
      sliceGetVarint data = some (v, rest) →
      ∃ script', Progressive script' ∧ gvRun script data [] 0 = .ok (v, script', rest) := by
  induction script with
  | nil =>
    intro data v rest _ hs
    cases data with
    | nil => exact absurd hs (by simp [sliceGetVarint])
    | cons b ds =>
      rw [sliceGetVarint_cons] at hs
      split at hs
      · exact absurd hs (by simp)
      · next hge =>
        rw [Option.some_inj, Prod.mk.injEq] at hs
        obtain ⟨hval, hrest⟩ := hs
        refine ⟨[], fun e he => absurd he (List.not_mem_nil e), ?_⟩
        rw [gvRun_nil]
        unfold gvFin
        dsimp only
        have hps : 0 < parse_size b := Nat.two_pow_pos (b / 64)
        rw [if_pos (by simp only [List.length_cons] at hge; omega)]
        have hdrop : ds.drop (parse_size b - 1) = rest := by
          obtain ⟨m, hm⟩ : ∃ m, parse_size b = m + 1 := ⟨parse_size b - 1, by omega⟩
          rw [← hrest, hm]
          simp
        rw [hval, hdrop]
  | cons e rest' ih =>
    intro data v rest hp hs
    have hpr : Progressive rest' := fun x hx => hp x (List.mem_cons_of_mem e hx)
    cases data with
    | nil => exact absurd hs (by simp [sliceGetVarint])
    | cons b ds =>
      cases e with
      | none =>
        obtain ⟨s', hs', heq⟩ := ih (b :: ds) v rest hpr hs
        exact ⟨s', hs', by rw [gvRun_pending1]; exact heq⟩
      | some k =>
        have hpe : (some k : Option Nat) ≠ some 0 := hp _ (List.mem_cons_self _ _)
        have hk : ¬ k = 0 := fun h0 => hpe (by rw [h0])
        rw [gvRun_chunk1 _ _ _ _ _ hk]
        rw [sliceGetVarint_cons] at hs
        split at hs
        · exact absurd hs (by simp)
        · next hge =>
          rw [Option.some_inj, Prod.mk.injEq] at hs
          obtain ⟨hval, hrest⟩ := hs
          have hps : 0 < parse_size b := Nat.two_pow_pos (b / 64)
          obtain ⟨s', hs', heq⟩ := gvRun_phase2_ok rest' ds b [] (parse_size b) hpr
            (by simp only [List.length_cons, List.length_nil]; omega)
            (by simp only [List.length_cons, List.length_nil] at hge ⊢; omega)
          refine ⟨s', hs', ?_⟩
          rw [heq]
          have hdrop : ds.drop (parse_size b - 1) = rest := by
            obtain ⟨m, hm⟩ : ∃ m, parse_size b = m + 1 := ⟨parse_size b - 1, by omega⟩
            rw [← hrest, hm]
            simp
          show Except.ok (decodeVarint ((b :: ds).take (parse_size b)), s',
            ds.drop (parse_size b - 1)) = _
          rw [hval, hdrop]

/-- If the synchronous slice reader reports insufficient bytes, the
asynchronous `GetVarint` over the same bytes (then EOF) ends with `Closed`,
for every script. -/
theorem gvRun_start_closed (script : List (Option Nat)) :
    ∀ data : List Nat, sliceGetVarint data = none →
      gvRun script data [] 0 = .error .Closed := by
  induction script with
  | nil =>
    intro data hs
    rw [gvRun_nil]
    cases data with
    | nil => rfl
    | cons b ds =>
      unfold gvFin
      dsimp only
      rw [sliceGetVarint_cons] at hs
      split at hs
      · next hlt =>
        rw [if_neg (by simp only [List.length_cons] at hlt; omega)]
      · exact absurd hs (by simp)
  | cons e rest ih =>
    intro data hs
    cases e with
    | none => rw [gvRun_pending1]; exact ih data hs
    | some k =>
      cases data with
      | nil => exact gvRun_chunk1_nildata k rest 0
      | cons b ds =>
        by_cases hk : k = 0
        · subst hk; exact gvRun_chunk1_zero rest b ds 0
        · rw [gvRun_chunk1 _ _ _ _ _ hk]
          rw [sliceGetVarint_cons] at hs
          split at hs
          · next hlt =>
            apply gvRun_phase2_short
            simp only [List.length_cons, List.length_nil] at hlt ⊢
            omega
          · exact absurd hs (by simp)

/-- For any script whatsoever — including scripts with spurious zero-byte
transfers — `GetVarint` either ends with `Closed` or completes with exactly
the value and remainder of the synchronous slice reader; it never completes
with a wrong value, never errors differently, and never gets stuck. -/
theorem gvRun_start_any (script : List (Option Nat)) :
    ∀ data : List Nat,
      gvRun script data [] 0 = .error .Closed ∨
      ∃ v rest script', sliceGetVarint data = some (v, rest) ∧
        gvRun script data [] 0 = .ok (v, script', rest) := by
  induction script with
  | nil =>
    intro data
    cases data with
    | nil => exact Or.inl rfl
    | cons b ds =>
      rw [gvRun_nil]
      unfold gvFin
      dsimp only
      have hps : 0 < parse_size b := Nat.two_pow_pos (b / 64)
      by_cases hd : parse_size b - 1 ≤ ds.length
      · rw [if_pos hd]
        refine Or.inr ⟨decodeVarint ((b :: ds).take (parse_size b)),
          (b :: ds).drop (parse_size b), [], ?_, ?_⟩
        · rw [sliceGetVarint_cons, if_neg (by simp only [List.length_cons]; omega)]
        · have hdrop : ds.drop (parse_size b - 1) = (b :: ds).drop (parse_size b) := by
            obtain ⟨m, hm⟩ : ∃ m, parse_size b = m + 1 := ⟨parse_size b - 1, by omega⟩
            rw [hm]
            simp
          rw [hdrop]
      · rw [if_neg hd]
        exact Or.inl rfl
  | cons e rest ih =>
    intro data
    cases e with
    | none => rw [gvRun_pending1]; exact ih data
    | some k =>
      cases data with
      | nil => exact Or.inl (gvRun_chunk1_nildata k rest 0)
      | cons b ds =>
        by_cases hk : k = 0
        · subst hk; exact Or.inl (gvRun_chunk1_zero rest b ds 0)
        · rw [gvRun_chunk1 _ _ _ _ _ hk]
          have hps : 0 < parse_size b := Nat.two_pow_pos (b / 64)
          rcases gvRun_phase2_any rest ds b [] (parse_size b)
              (by simp only [List.length_cons, List.length_nil]; omega) with
            hcl | ⟨hd, s', heq⟩
          · exact Or.inl hcl
          · simp only [List.length_cons, List.length_nil] at hd
            refine Or.inr ⟨decodeVarint ((b :: ds).take (parse_size b)),
              (b :: ds).drop (parse_size b), s', ?_, ?_⟩
            · rw [sliceGetVarint_cons, if_neg (by simp only [List.length_cons]; omega)]
            · rw [heq]
              have hdrop : ds.drop (parse_size b - 1) = (b :: ds).drop (parse_size b) := by
                obtain ⟨m, hm⟩ : ∃ m, parse_size b = m + 1 := ⟨parse_size b - 1, by omega⟩
                rw [hm]
                simp
              show Except.ok (decodeVarint ((b :: ds).take (parse_size b)), s',
                ds.drop (parse_size b - 1)) = _
              rw [hdrop]

/-- The `GetBuffer` future over an empty source ends with `Closed` whenever it
still needs bytes, for every script. -/
theorem gbRun_empty (script : List (Option Nat)) :
    ∀ (acc : List Nat) (len : Nat), acc.length < len →
      gbRun script [] acc len = .error .Closed := by
  induction script with
  | nil =>
    intro acc len h
    show gbFin [] acc len = _
    unfold gbFin
    rw [if_neg (by omega), if_neg (by simp only [List.length_nil]; omega)]
  | cons e rest ih =>
    intro acc len h
    show gbRun (e :: rest) [] acc len = _
    simp only [gbRun]
    rw [if_neg (by omega)]
    cases e with
    | none => exact ih acc len h
    | some k =>
      dsimp only
      simp

/- ### C5: the get_varint contract -/

/-- C5: for both reader states — `BufferReader` and byte slice — `get_varint`
fails leaving the reader unchanged when the capacity is zero; otherwise, with
`size = parse_size(first byte)`, it fails leaving the reader unchanged (not
even the first byte consumed) when the capacity is below `size`, and otherwise
decodes the next `size` bytes and advances the offset by exactly `size`. -/
theorem C5_get_varint_contract (r : BufferReader) (bs : List Nat) :
    (r.capacity = 0 → r.get_varint = (none, r)) ∧
    (∀ b0 t, r.buffer_remaining = b0 :: t →
      (r.capacity < parse_size b0 → r.get_varint = (none, r)) ∧
      (parse_size b0 ≤ r.capacity →
        r.get_varint = (some (decodeVarint (r.buffer_remaining.take (parse_size b0))),
          ⟨r.buffer, r.offset + parse_size b0⟩))) ∧
    (bs = [] → sliceGetVarint bs = none) ∧
    (∀ b0 t, bs = b0 :: t →
      (bs.length < parse_size b0 → sliceGetVarint bs = none) ∧
      (parse_size b0 ≤ bs.length →
        sliceGetVarint bs = some (decodeVarint (bs.take (parse_size b0)),
          bs.drop (parse_size b0)))) := by
  refine ⟨?_, ?_, ?_, ?_⟩
  · intro h0
    have hrem : r.buffer_remaining = [] := by
      have := capacity_eq_remaining r
      rw [h0] at this
      exact List.length_eq_zero.mp this.symm
    unfold BufferReader.get_varint
    rw [hrem]
    rfl
  · intro b0 t hrem
    constructor
    · intro hlt
      unfold BufferReader.get_varint
      rw [hrem]
      simp only [List.head?_cons]
      rw [if_pos hlt]
    · intro hge
      unfold BufferReader.get_varint
      rw [hrem]
      simp only [List.head?_cons]
      rw [if_neg (Nat.not_lt.mpr hge)]
  · intro h0
    rw [h0]
    rfl
  · intro b0 t hbs
    subst hbs
    rw [sliceGetVarint_cons]
    constructor
    · intro hlt
      rw [if_pos hlt]
    · intro hge
      rw [if_neg (Nat.not_lt.mpr hge)]

/-- Witness for C5: reading the canonical one-byte varint `0x25` advances a
fresh reader by exactly one byte and decodes `37`. -/
theorem C5_witness :
    (BufferReader.new [0x25]).get_varint = (some 37, ⟨[0x25], 1⟩) := by
  have h := ((C5_get_varint_contract (BufferReader.new [0x25]) []).2.1 0x25 [] rfl).2 (by decide)
  rw [h]
  decide

/- ### C4: child cursor creation and commit -/

theorem reach_inv (r c : BufferReader) (hr : Reach r c) :
    c.buffer = r.buffer ∧ r.offset ≤ c.offset ∧
    (r.offset ≤ r.buffer.length → c.offset ≤ c.buffer.length) := by
  induction hr with
  | refl => exact ⟨rfl, le_refl _, fun h => h⟩
  | varintStep r₂ r₃ v hreach hgv ih =>
    obtain ⟨hbuf, hoff, hbound⟩ := ih
    unfold BufferReader.get_varint at hgv
    cases hrem : r₂.buffer_remaining with
    | nil => rw [hrem] at hgv; simp at hgv
    | cons b t =>
      rw [hrem] at hgv
      simp only [List.head?_cons] at hgv
      by_cases hcap : r₂.capacity < parse_size b
      · rw [if_pos hcap] at hgv; simp at hgv
      · rw [if_neg hcap] at hgv
        rw [Prod.mk.injEq] at hgv
        obtain ⟨_, hr3⟩ := hgv
        have hps : 0 < parse_size b := Nat.two_pow_pos (b / 64)
        have hcap' : parse_size b ≤ r₂.buffer.length - r₂.offset := Nat.not_lt.mp hcap
        refine ⟨by rw [← hr3]; exact hbuf, ?_, ?_⟩
        · rw [← hr3]
          show r.offset ≤ r₂.offset + parse_size b
          omega
        · intro _
          rw [← hr3]
          show r₂.offset + parse_size b ≤ r₂.buffer.length
          omega
  | bytesStep r₂ r₃ n bsr hreach hgb ih =>
    obtain ⟨hbuf, hoff, hbound⟩ := ih
    unfold BufferReader.get_bytes at hgb
    by_cases hcap : r₂.capacity < n
    · rw [if_pos hcap] at hgb; simp at hgb
    · rw [if_neg hcap] at hgb
      rw [Prod.mk.injEq] at hgb
      obtain ⟨_, hr3⟩ := hgb
      have hcap' : n ≤ r₂.buffer.length - r₂.offset := Nat.not_lt.mp hcap
      refine ⟨by rw [← hr3]; exact hbuf, ?_, ?_⟩
      · rw [← hr3]
        show r.offset ≤ r₂.offset + n
        omega
      · intro hb
        rw [← hr3]
        show r₂.offset + n ≤ r₂.buffer.length
        have := hbound hb
        rw [hbuf] at this
        omega
  | skipStep r₂ r₃ n hreach hsk ih =>
    obtain ⟨hbuf, hoff, hbound⟩ := ih
    unfold BufferReader.skip at hsk
    by_cases hcap : n ≤ r₂.capacity
    · rw [if_pos hcap] at hsk
      rw [Option.some_inj] at hsk
      have hcap' : n ≤ r₂.buffer.length - r₂.offset := hcap
      refine ⟨by rw [← hsk]; exact hbuf, ?_, ?_⟩
      · rw [← hsk]
        show r.offset ≤ r₂.offset + n
        omega
      · intro hb
        rw [← hsk]
        show r₂.offset + n ≤ r₂.buffer.length
        have := hbound hb
        rw [hbuf] at this
        omega
    · rw [if_neg hcap] at hsk
      exact absurd hsk (by simp)

/-- C4: a child created by `BufferReader::child` starts at offset `0` with
capacity equal to the parent's remaining capacity; after any sequence of
successful reads on the child, `commit()` is a valid skip that advances the
parent's offset by exactly the child's consumed length.  (Dropping the child
without committing cannot affect the parent: in this pure embedding the child
operations act only on the child state, and the drop-side observable behavior
is the subject of `read_from_buffer`'s failure cases.) -/
theorem C4_child_commit (r c : BufferReader) (hc : Reach r.child c) :
    r.child.offset = 0 ∧ r.child.capacity = r.capacity ∧
    r.skip c.offset = some ⟨r.buffer, r.offset + c.offset⟩ ∧
    r.commit c.offset = ⟨r.buffer, r.offset + c.offset⟩ := by
  obtain ⟨hbuf, _, hbound⟩ := reach_inv r.child c hc
  have hchildlen : r.child.buffer.length = r.capacity := by
    show r.buffer_remaining.length = r.capacity
    rw [capacity_eq_remaining]
  have hcb : c.offset ≤ r.capacity := by
    have hb := hbound (Nat.zero_le _)
    rw [hbuf, hchildlen] at hb
    exact hb
  have hskip : r.skip c.offset = some ⟨r.buffer, r.offset + c.offset⟩ := by
    unfold BufferReader.skip
    rw [if_pos hcb]
  refine ⟨rfl, ?_, hskip, ?_⟩
  · show r.child.buffer.length - r.child.offset = r.capacity
    rw [hchildlen]
    rfl
  · unfold BufferReader.commit
    rw [hskip]
    rfl

/-- Witness for C4: a parent over two bytes whose child performs one
successful one-byte varint read before committing. -/
theorem C4_witness :
    (BufferReader.new [0x25, 5]).child.offset = 0 ∧
    (BufferReader.new [0x25, 5]).child.capacity = (BufferReader.new [0x25, 5]).capacity ∧
    (BufferReader.new [0x25, 5]).skip (BufferReader.mk [0x25, 5] 1).offset =
      some ⟨[0x25, 5], (BufferReader.new [0x25, 5]).offset + (BufferReader.mk [0x25, 5] 1).offset⟩ ∧
    (BufferReader.new [0x25, 5]).commit (BufferReader.mk [0x25, 5] 1).offset =
      ⟨[0x25, 5], (BufferReader.new [0x25, 5]).offset + (BufferReader.mk [0x25, 5] 1).offset⟩ :=
  C4_child_commit (BufferReader.new [0x25, 5]) (BufferReader.mk [0x25, 5] 1)
    (Reach.varintStep _ _ _ 37 (Reach.refl _) (by decide))

/- ### C8: empty sources always fail, never panic -/

/-- C8: on a zero-length buffer `get_varint` and `get_bytes(len)` with
`len > 0` fail with the reader unchanged (`EndOfBuffer` semantics), and on a
source that immediately reports zero bytes for a nonempty request the
`GetVarint` and `GetBuffer` futures complete with `Err(Closed)` — all four
operations are total functions here, so no panic is possible. -/
theorem C8_empty_source_fails (len : Nat) (script : List (Option Nat)) (hl : 0 < len) :
    (BufferReader.new []).get_varint = (none, BufferReader.new []) ∧
    (BufferReader.new []).get_bytes len = (none, BufferReader.new []) ∧
    gvRun script [] [] 0 = .error .Closed ∧
    gbRun script [] [] len = .error .Closed := by
  refine ⟨rfl, ?_, ?_, ?_⟩
  · unfold BufferReader.get_bytes
    rw [if_pos (by simpa [BufferReader.new, BufferReader.capacity] using hl)]
  · exact gvRun_start_closed script [] rfl
  · exact gbRun_empty script [] len (by simpa using hl)

/-- Witness for C8 with a one-byte request and a script containing a pending
suspension and a would-be transfer. -/
theorem C8_witness :
    (BufferReader.new []).get_varint = (none, BufferReader.new []) ∧
    (BufferReader.new []).get_bytes 1 = (none, BufferReader.new []) ∧
    gvRun [none, some 2] [] [] 0 = .error .Closed ∧
    gbRun [none, some 2] [] [] 1 = .error .Closed :=
  C8_empty_source_fails 1 [none, some 2] (by decide)

/- ### C10: the slice AsyncRead impl panics on short sources -/

/-- C10 is a code bug: `impl AsyncRead for &[u8]` computes
`amt = min(len, buf.len())` and then calls `buf.copy_from_slice(a)` on the
whole destination, which panics whenever the transferred chunk is nonempty but
shorter than the destination (`0 < src.len() < buf.len()`), contradicting the
trait's own documentation ("on success returns `Ready(num_bytes_read)`", zero
only for an empty destination or EOF).  At the failing input — source `[0x25]`,
destination of length 2 — the model panics (`none`); the surrounding cases
behave as documented. -/
theorem C10_poll_read_panics_on_short_source :
    slicePollRead [0x25] 2 = none ∧
    slicePollRead [0x25, 0x26] 2 = some (2, []) ∧
    slicePollRead [0x25, 0x26, 0x27] 2 = some (2, [0x27]) ∧
    slicePollRead [] 2 = some (0, []) ∧
    slicePollRead [0x25] 1 = some (1, []) := by
  decide

/- ### C2: the three reading entry points agree -/

/-- C2: on any complete byte sequence, the three header-reading entry points
classify identically: the raw slice read, the buffer-atomic read over the same
bytes, and the asynchronous read over a source that delivers the same bytes
(in arbitrary nonempty partial transfers with suspensions) then EOF accept
exactly the same sequences — yielding headers with equal kind and session id —
and reject exactly the same sequences with the same content error, differing
only in how incomplete input is reported (`None` vs `IoError`) and in
atomicity. -/
theorem C2_read_entry_points_agree (validSid : Nat → Bool) (bs : List Nat)
    (script : List (Option Nat)) (hp : Progressive script) :
    classify (StreamHeader.readSlice validSid bs).1 =
      classify (StreamHeader.read_from_buffer validSid (BufferReader.new bs)).1 ∧
    classify (StreamHeader.readSlice validSid bs).1 =
      classifyAsync (StreamHeader.read_async validSid script bs) := by
  constructor
  · rw [read_from_buffer_fst]
    rfl
  · unfold StreamHeader.readSlice StreamHeader.read_async
    cases hgv : sliceGetVarint bs with
    | none =>
      rw [gvRun_start_closed script bs hgv]
      rfl
    | some p =>
      obtain ⟨kid, bs1⟩ := p
      obtain ⟨s1, hs1, heq1⟩ := gvRun_start_ok script bs kid bs1 hp hgv
      rw [heq1]
      dsimp only
      cases hk : StreamKind.parse kid with
      | none => rfl
      | some kind =>
        cases kind with
        | WebTransport =>
          cases hgv2 : sliceGetVarint bs1 with
          | none =>
            rw [gvRun_start_closed s1 bs1 hgv2]
            rfl
          | some q =>
            obtain ⟨sid, bs2⟩ := q
            obtain ⟨s2, hs2, heq2⟩ := gvRun_start_ok s1 bs1 sid bs2 hs1 hgv2
            rw [heq2]
            dsimp only
            by_cases hv : validSid sid <;> simp [hv, classify, classifyAsync]
        | Control => rfl
        | QPackEncoder => rfl
        | QPackDecoder => rfl
        | Exercise i => rfl

/-- Witness for C2: a complete `WebTransport` header under a byte-at-a-time
script with suspensions. -/
theorem C2_witness :
    classify (StreamHeader.readSlice (fun _ => true) [0x40, 0x54, 0]).1 =
      classify (StreamHeader.read_from_buffer (fun _ => true)
        (BufferReader.new [0x40, 0x54, 0])).1 ∧
    classify (StreamHeader.readSlice (fun _ => true) [0x40, 0x54, 0]).1 =
      classifyAsync (StreamHeader.read_async (fun _ => true)
        [none, some 1, some 1, none, some 1] [0x40, 0x54, 0]) :=
  C2_read_entry_points_agree (fun _ => true) [0x40, 0x54, 0]
    [none, some 1, some 1, none, some 1] (by decide)

/- ### Header shapes produced by the reading entry points -/

theorem readSlice_fst_ok_shape (validSid : Nat → Bool) (bs : List Nat) (h : StreamHeader)
    (he : (StreamHeader.readSlice validSid bs).1 = some (.ok h)) :
    (∃ k, h = ⟨k, none⟩ ∧ k ≠ .WebTransport) ∨
    ∃ sid, h = ⟨.WebTransport, some sid⟩ ∧ validSid sid = true := by
  unfold StreamHeader.readSlice at he
  cases hgv : sliceGetVarint bs with
  | none => rw [hgv] at he; exact absurd he (by simp)
  | some p =>
    obtain ⟨kid, bs1⟩ := p
    rw [hgv] at he
    dsimp only at he
    cases hk : StreamKind.parse kid with
    | none => rw [hk] at he; exact absurd he (by simp)
    | some kind =>
      rw [hk] at he
      cases kind with
      | WebTransport =>
        dsimp only at he
        cases hgv2 : sliceGetVarint bs1 with
        | none => rw [hgv2] at he; exact absurd he (by simp)
        | some q =>
          obtain ⟨sid, bs2⟩ := q
          rw [hgv2] at he
          dsimp only at he
          by_cases hv : validSid sid
          · rw [if_pos hv] at he
            exact Or.inr ⟨sid, (Except.ok.inj (Option.some.inj he)).symm, hv⟩
          · rw [if_neg hv] at he
            exact absurd he (by simp)
      | Control =>
        exact Or.inl ⟨.Control, (Except.ok.inj (Option.some.inj he)).symm,
          fun hh => StreamKind.noConfusion hh⟩
      | QPackEncoder =>
        exact Or.inl ⟨.QPackEncoder, (Except.ok.inj (Option.some.inj he)).symm,
          fun hh => StreamKind.noConfusion hh⟩
      | QPackDecoder =>
        exact Or.inl ⟨.QPackDecoder, (Except.ok.inj (Option.some.inj he)).symm,
          fun hh => StreamKind.noConfusion hh⟩
      | Exercise i =>
        exact Or.inl ⟨.Exercise i, (Except.ok.inj (Option.some.inj he)).symm,
          fun hh => StreamKind.noConfusion hh⟩

theorem read_async_ok_shape (validSid : Nat → Bool) (script : List (Option Nat))
    (data : List Nat) (h : StreamHeader) (s' : List (Option Nat)) (d' : List Nat)
    (he : StreamHeader.read_async validSid script data = .ok (h, s', d')) :
    (∃ k, h = ⟨k, none⟩ ∧ k ≠ .WebTransport) ∨
    ∃ sid, h = ⟨.WebTransport, some sid⟩ ∧ validSid sid = true := by
  unfold StreamHeader.read_async at he
  cases hg1 : gvRun script data [] 0 with
  | error e => rw [hg1] at he; exact absurd he (by simp)
  | ok trip =>
    obtain ⟨kid, s1, d1⟩ := trip
    rw [hg1] at he
    dsimp only at he
    cases hk : StreamKind.parse kid with
    | none => rw [hk] at he; exact absurd he (by simp)
    | some kind =>
      rw [hk] at he
      cases kind with
      | WebTransport =>
        dsimp only at he
        cases hg2 : gvRun s1 d1 [] 0 with
        | error e => rw [hg2] at he; exact absurd he (by simp)
        | ok trip2 =>
          obtain ⟨sid, s2, d2⟩ := trip2
          rw [hg2] at he
          dsimp only at he
          by_cases hv : validSid sid
          · rw [if_pos hv] at he
            exact Or.inr ⟨sid, (congrArg Prod.fst (Except.ok.inj he)).symm, hv⟩
          · rw [if_neg hv] at he
            exact absurd he (by simp)
      | Control =>
        exact Or.inl ⟨.Control, (congrArg Prod.fst (Except.ok.inj he)).symm,
          fun hh => StreamKind.noConfusion hh⟩
      | QPackEncoder =>
        exact Or.inl ⟨.QPackEncoder, (congrArg Prod.fst (Except.ok.inj he)).symm,
          fun hh => StreamKind.noConfusion hh⟩
      | QPackDecoder =>
        exact Or.inl ⟨.QPackDecoder, (congrArg Prod.fst (Except.ok.inj he)).symm,
          fun hh => StreamKind.noConfusion hh⟩
      | Exercise i =>
        exact Or.inl ⟨.Exercise i, (congrArg Prod.fst (Except.ok.inj he)).symm,
          fun hh => StreamKind.noConfusion hh⟩

theorem headerInvOk_of_shape (h : StreamHeader)
    (hs : (∃ k, h = ⟨k, none⟩ ∧ k ≠ .WebTransport) ∨
      ∃ sid, h = ⟨.WebTransport, some sid⟩) :
    (h.session_id.isSome ↔ h.kind = .WebTransport) ∧
    h.session_id_acc = some h.session_id := by
  rcases hs with ⟨k, rfl, hk⟩ | ⟨sid, rfl⟩
  · constructor
    · simp [hk]
    · cases k with
      | WebTransport => exact absurd rfl hk
      | Control => rfl
      | QPackEncoder => rfl
      | QPackDecoder => rfl
      | Exercise i => rfl
  · exact ⟨by simp, rfl⟩

/- ### C9: the session-id/kind invariant on reachable headers -/

/-- C9: every header reachable through the public entry points —
`new_control`, `new_webtransport`, `read`, `read_from_buffer`, `read_async` —
has a session id exactly when its kind is `WebTransport`, and on such headers
the `session_id()` accessor returns `Some` exactly for `WebTransport` and
never hits its panic (`session_id_acc` is `some` of the stored field). -/
theorem C9_session_id_invariant (validSid : Nat → Bool) (sid : Nat)
    (bs data : List Nat) (r : BufferReader) (script : List (Option Nat))
    (h₁ h₂ h₃ : StreamHeader) (rest : List Nat) (r₂ : BufferReader)
    (s' : List (Option Nat)) (d' : List Nat)
    (e₁ : StreamHeader.readSlice validSid bs = (some (.ok h₁), rest))
    (e₂ : StreamHeader.read_from_buffer validSid r = (some (.ok h₂), r₂))
    (e₃ : StreamHeader.read_async validSid script data = .ok (h₃, s', d')) :
    ((StreamHeader.new_control.session_id.isSome ↔
        StreamHeader.new_control.kind = .WebTransport) ∧
      StreamHeader.new_control.session_id_acc = some StreamHeader.new_control.session_id) ∧
    (((StreamHeader.new_webtransport sid).session_id.isSome ↔
        (StreamHeader.new_webtransport sid).kind = .WebTransport) ∧
      (StreamHeader.new_webtransport sid).session_id_acc =
        some (StreamHeader.new_webtransport sid).session_id) ∧
    ((h₁.session_id.isSome ↔ h₁.kind = .WebTransport) ∧
      h₁.session_id_acc = some h₁.session_id) ∧
    ((h₂.session_id.isSome ↔ h₂.kind = .WebTransport) ∧
      h₂.session_id_acc = some h₂.session_id) ∧
    ((h₃.session_id.isSome ↔ h₃.kind = .WebTransport) ∧
      h₃.session_id_acc = some h₃.session_id) := by
  refine ⟨⟨by simp [StreamHeader.new_control], rfl⟩,
    ⟨by simp [StreamHeader.new_webtransport], rfl⟩, ?_, ?_, ?_⟩
  · refine headerInvOk_of_shape h₁ ?_
    have hs := readSlice_fst_ok_shape validSid bs h₁ (by rw [e₁])
    rcases hs with ⟨k, hk, hne⟩ | ⟨sid', hsid, _⟩
    · exact Or.inl ⟨k, hk, hne⟩
    · exact Or.inr ⟨sid', hsid⟩
  · refine headerInvOk_of_shape h₂ ?_
    have hfst : (StreamHeader.readSlice validSid r.buffer_remaining).1 = some (.ok h₂) := by
      rw [← read_from_buffer_fst, e₂]
    have hs := readSlice_fst_ok_shape validSid r.buffer_remaining h₂ hfst
    rcases hs with ⟨k, hk, hne⟩ | ⟨sid', hsid, _⟩
    · exact Or.inl ⟨k, hk, hne⟩
    · exact Or.inr ⟨sid', hsid⟩
  · refine headerInvOk_of_shape h₃ ?_
    have hs := read_async_ok_shape validSid script data h₃ s' d' e₃
    rcases hs with ⟨k, hk, hne⟩ | ⟨sid', hsid, _⟩
    · exact Or.inl ⟨k, hk, hne⟩
    · exact Or.inr ⟨sid', hsid⟩

/-- Witness for C9: all three reading entry points produce a `WebTransport`
header from the wire bytes `[0x40, 0x54, 0x00]`. -/
theorem C9_witness :
    ((StreamHeader.new_control.session_id.isSome ↔
        StreamHeader.new_control.kind = .WebTransport) ∧
      StreamHeader.new_control.session_id_acc = some StreamHeader.new_control.session_id) ∧
    (((StreamHeader.new_webtransport 7).session_id.isSome ↔
        (StreamHeader.new_webtransport 7).kind = .WebTransport) ∧
      (StreamHeader.new_webtransport 7).session_id_acc =
        some (StreamHeader.new_webtransport 7).session_id) ∧
    ((StreamHeader.mk .WebTransport (some 0)).session_id.isSome ↔
        (StreamHeader.mk .WebTransport (some 0)).kind = .WebTransport) ∧
      (StreamHeader.mk .WebTransport (some 0)).session_id_acc =
        some (StreamHeader.mk .WebTransport (some 0)).session_id := by
  have h := C9_session_id_invariant (fun _ => true) 7 [0x40, 0x54, 0] [0x40, 0x54, 0]
    (BufferReader.new [0x40, 0x54, 0]) []
    ⟨.WebTransport, some 0⟩ ⟨.WebTransport, some 0⟩ ⟨.WebTransport, some 0⟩
    [] (BufferReader.mk [0x40, 0x54, 0] 3) [] []
    rfl rfl rfl
  exact ⟨h.1, h.2.1, h.2.2.1⟩

/- ### C6: the exercise/greasing rule -/

/-- Counterexample for C6: the byte `0x21` encodes the valid exercise
discriminant `0x21`, and `StreamHeader::read` accepts it as
`StreamKind::Exercise(0x21)` instead of rejecting it as `UnknownStream`. -/
theorem C6_counterexample :
    StreamHeader.readSlice (fun _ => true) [0x21] =
      (some (.ok ⟨.Exercise 0x21, none⟩), []) ∧
    (StreamHeader.readSlice (fun _ => true) [0x21]).1 ≠
      some (.error .UnknownStream) :=
  ⟨rfl, fun h => Except.noConfusion (Option.some.inj h)⟩

/-- C6 amended: for every discriminant `v` with `v ≥ 0x21` and
`(v - 0x21) mod 0x1f = 0`, every reading entry point *accepts* the stream
header whose leading varint encodes `v`, yielding kind `Exercise(v)` (rather
than rejecting it as `UnknownStream`; only ids outside the fixed constants
that also fail the exercise rule are rejected). -/
theorem C6_amended_exercise_accepted (v : Nat) (validSid : Nat → Bool)
    (script : List (Option Nat)) (hv : v < varintBound)
    (he : StreamKind.is_id_exercise v = true) (hp : Progressive script) :
    StreamKind.parse v = some (.Exercise v) ∧
    StreamHeader.readSlice validSid (encodeVarint v) =
      (some (.ok ⟨.Exercise v, none⟩), []) ∧
    (StreamHeader.read_from_buffer validSid (BufferReader.new (encodeVarint v))).1 =
      some (.ok ⟨.Exercise v, none⟩) ∧
    ∃ script', StreamHeader.read_async validSid script (encodeVarint v) =
      .ok (⟨.Exercise v, none⟩, script', []) := by
  have hparse : StreamKind.parse v = some (.Exercise v) :=
    parse_kind_id (.Exercise v) (by intro i hi; cases hi; exact he)
  have hslice : StreamHeader.readSlice validSid (encodeVarint v) =
      (some (.ok ⟨.Exercise v, none⟩), []) := by
    have hrk := readSlice_encode_kind validSid (.Exercise v) [] hv hparse (by simp)
    simpa using hrk
  refine ⟨hparse, hslice, ?_, ?_⟩
  · rw [read_from_buffer_fst]
    rw [show (BufferReader.new (encodeVarint v)).buffer_remaining = encodeVarint v from rfl]
    rw [hslice]
  · have hsgv : sliceGetVarint (encodeVarint v) = some (v, []) := by
      simpa using sliceGetVarint_encode v hv []
    obtain ⟨s', _, heq⟩ := gvRun_start_ok script (encodeVarint v) v [] hp hsgv
    refine ⟨s', ?_⟩
    unfold StreamHeader.read_async
    rw [heq]
    dsimp only
    rw [hparse]

/-- Witness for C6's amended statement at `v = 0x21`. -/
theorem C6_witness :
    StreamKind.parse 0x21 = some (.Exercise 0x21) ∧
    StreamHeader.readSlice (fun _ => true) (encodeVarint 0x21) =
      (some (.ok ⟨.Exercise 0x21, none⟩), []) ∧
    (StreamHeader.read_from_buffer (fun _ => true)
        (BufferReader.new (encodeVarint 0x21))).1 =
      some (.ok ⟨.Exercise 0x21, none⟩) ∧
    ∃ script', StreamHeader.read_async (fun _ => true) [none, some 3] (encodeVarint 0x21) =
      .ok (⟨.Exercise 0x21, none⟩, script', []) :=
  C6_amended_exercise_accepted 0x21 (fun _ => true) [none, some 3]
    (by decide) (by decide) (by decide)

/- ### C7: GetVarint across arbitrary partial transfers -/

/-- C7: for every varint value and every source delivering its encoded bytes
split into arbitrary nonempty partial transfers (interleaved with pending
suspensions), the `GetVarint` future completes with `Ok` of exactly that
value having consumed all bytes; if the source reports a zero-byte transfer
before all `varint_size` bytes have arrived — a strict prefix followed by
EOF, under any script — the future completes with `Err(Closed)`; and under
any script at all the outcome is one of exactly those two. -/
theorem C7_getvarint_stepwise (v m : Nat) (script : List (Option Nat))
    (hv : v < varintBound) (hp : Progressive script)
    (hm : m < (encodeVarint v).length) :
    (∃ script', gvRun script (encodeVarint v) [] 0 = .ok (v, script', [])) ∧
    (∀ script₂ : List (Option Nat),
      gvRun script₂ ((encodeVarint v).take m) [] 0 = .error .Closed) ∧
    (∀ script₂ : List (Option Nat),
      gvRun script₂ (encodeVarint v) [] 0 = .error .Closed ∨
      ∃ script', gvRun script₂ (encodeVarint v) [] 0 = .ok (v, script', [])) := by
  have hsgv : sliceGetVarint (encodeVarint v) = some (v, []) := by
    simpa using sliceGetVarint_encode v hv []
  have hpfx : sliceGetVarint ((encodeVarint v).take m) = none := by
    cases henc : encodeVarint v with
    | nil => rw [henc] at hm; simp at hm
    | cons b t =>
      rw [henc] at hsgv hm
      rw [sliceGetVarint_cons] at hsgv
      split at hsgv
      · exact absurd hsgv (by simp)
      · next hge =>
        rw [Option.some_inj, Prod.mk.injEq] at hsgv
        obtain ⟨_, hdropnil⟩ := hsgv
        have hlen0 : (b :: t).length - parse_size b = 0 := by
          have hh := congrArg List.length hdropnil
          simpa using hh
        cases m with
        | zero => rfl
        | succ m' =>
          rw [List.take_succ_cons, sliceGetVarint_cons]
          rw [if_pos ?_]
          simp only [List.length_cons, List.length_take] at hm hlen0 ⊢
          omega
  refine ⟨?_, ?_, ?_⟩
  · obtain ⟨s', _, heq⟩ := gvRun_start_ok script (encodeVarint v) v [] hp hsgv
    exact ⟨s', heq⟩
  · intro script₂
    exact gvRun_start_closed script₂ _ hpfx
  · intro script₂
    rcases gvRun_start_any script₂ (encodeVarint v) with hcl | ⟨v', rest', s', hsv, heq⟩
    · exact Or.inl hcl
    · rw [hsgv, Option.some_inj, Prod.mk.injEq] at hsv
      obtain ⟨hv', hrest⟩ := hsv
      rw [← hv', ← hrest] at heq
      exact Or.inr ⟨s', heq⟩

/-- Witness for C7 at the canonical two-byte varint `15293` under a
byte-at-a-time script, with `m = 1` as the strict prefix length. -/
theorem C7_witness :
    (∃ script', gvRun [none, some 1, none, some 5] (encodeVarint 15293) [] 0 =
      .ok (15293, script', [])) ∧
    (∀ script₂ : List (Option Nat),
      gvRun script₂ ((encodeVarint 15293).take 1) [] 0 = .error .Closed) ∧
    (∀ script₂ : List (Option Nat),
      gvRun script₂ (encodeVarint 15293) [] 0 = .error .Closed ∨
      ∃ script', gvRun script₂ (encodeVarint 15293) [] 0 = .ok (15293, script', [])) :=
  C7_getvarint_stepwise 15293 1 [none, some 1, none, some 5]
    (by decide) (by decide) (by decide)

end WTProto
